import Mathlib

/-!
Verification of the Virbras DSP core against its specification.

The C++ sources under `src/cpp` are shallowly embedded here. Scalars are
modelled as exact rationals (`ℚ`) for the streaming primitives — every
concrete scenario in the spec and the tests uses values that are exact in
binary floating point, so ideal-field arithmetic is the faithful reading —
and as reals (`ℝ`) for the transcendental filter designers and waveshapers.
Ring buffers become `List ℚ` with explicit index arithmetic copied from the
source; out-of-bounds accesses (which are undefined behaviour in the C++)
are modelled by `Option`/`Except` failure.
-/

namespace Virbras

/-! ## Stream driving (filter_base.hpp, analog_to_digital_filters.hpp)

`IIRFilter::process` drains the input through `next` and then feeds
`num_output_transients` zero samples; `Signal::run_filter` does the same for
a vector input. Both are captured by `processIIR` below, generic in the
per-sample step function. -/

/-- Drive a stateful one-sample step function over a list of inputs,
collecting the outputs. -/
def runSamples {σ : Type} (step : σ → ℚ → ℚ × σ) : σ → List ℚ → List ℚ
  | _, [] => []
  | st, x :: xs =>
    let r := step st x
    r.1 :: runSamples step r.2 xs

/-- Embedding of `IIRFilter::process` / `Signal::run_filter`: run the filter
over the input samples, then over `numTransients` zero samples. -/
def processIIR {σ : Type} (step : σ → ℚ → ℚ × σ) (st : σ) (xs : List ℚ)
    (numTransients : ℕ) : List ℚ :=
  runSamples step st (xs ++ List.replicate numTransients 0)

/-! ## FeedforwardFeedbackCombFilter (feedback_comb_filter.hpp, lines 23-79)

State: two ring buffers of size `delay` and one write/read index. The step
is `FeedforwardFeedbackCombFilter::next`. -/

structure FFBCombFilter where
  input_coeff : ℚ
  input_delay_coeff : ℚ
  output_coeff : ℚ
  delay : ℕ
  input_buffer : List ℚ
  output_buffer : List ℚ
  buffer_idx : ℕ

/-- Embedding of the `FeedforwardFeedbackCombFilter` constructor: both
buffers are created as zero vectors of length `delay`, index zero. -/
def FFBCombFilter.mk0 (b0 b1 a : ℚ) (m : ℕ) : FFBCombFilter :=
  ⟨b0, b1, a, m, List.replicate m 0, List.replicate m 0, 0⟩

/-- Embedding of `FeedforwardFeedbackCombFilter::next`: read both buffers at
`buffer_idx`, form the output, write input and output back, and advance the
index modulo `delay`. -/
def FFBCombFilter.next (f : FFBCombFilter) (input : ℚ) : ℚ × FFBCombFilter :=
  let delay_input := f.input_buffer.getD f.buffer_idx 0
  let delay_output := f.output_buffer.getD f.buffer_idx 0
  let delay_term := f.input_delay_coeff * delay_input + f.output_coeff * delay_output
  let output := f.input_coeff * input + delay_term
  (output,
    { f with
      input_buffer := f.input_buffer.set f.buffer_idx input
      output_buffer := f.output_buffer.set f.buffer_idx output
      buffer_idx := (f.buffer_idx + 1) % f.delay })

/-! ## OnePoleLowpassFilter (feedback_comb_filter.hpp, lines 86-119)

The C++ class stores `prev_output` but its constructor initialises only
`alpha` and `beta`; `prev_output` is default-initialised, which for a
floating-point scalar leaves it indeterminate. The embedding therefore
exposes the initial memory as an explicit parameter `y0` of the
constructor model. -/

structure OnePoleLowpass where
  alpha : ℚ
  beta : ℚ
  prev_output : ℚ

/-- Embedding of the `OnePoleLowpassFilter` constructor. The source sets
only `alpha` and `beta`; the indeterminate initial `prev_output` is the
explicit parameter `y0`. -/
def OnePoleLowpass.mk0 (a b y0 : ℚ) : OnePoleLowpass := ⟨a, b, y0⟩

/-- Embedding of `OnePoleLowpassFilter::next`:
`y[n] = alpha * x[n] + beta * y[n-1]`. -/
def OnePoleLowpass.next (f : OnePoleLowpass) (input : ℚ) : ℚ × OnePoleLowpass :=
  let output := f.alpha * input + f.beta * f.prev_output
  (output, { f with prev_output := output })

/-! ## FilteredFeedbackCombFilter (feedback_comb_filter.hpp, lines 130-169)

The source reads `out_buffer[buffer_idx]`, feeds it through the one-pole
lowpass, writes the output back, and then increments `buffer_idx` WITHOUT
the modulo-`feedback_delay` wrap used by every other ring buffer in the
library. Buffer accesses are modelled with `List.get?`, so the
out-of-bounds access that the unwrapped index eventually produces (undefined
behaviour in C++) surfaces as `none`. -/

structure FilteredFBComb where
  alpha : ℚ
  beta : ℚ
  feedback_delay : ℕ
  lp_filter : OnePoleLowpass
  out_buffer : List ℚ
  buffer_idx : ℕ

/-- Embedding of the `FilteredFeedbackCombFilter` constructor: a one-pole
lowpass `(alpha, beta)` (whose indeterminate initial memory is the explicit
parameter `y0`), a zero buffer of length `feedback_delay`, index zero. -/
def FilteredFBComb.mk0 (a b : ℚ) (m : ℕ) (y0 : ℚ) : FilteredFBComb :=
  ⟨a, b, m, OnePoleLowpass.mk0 a b y0, List.replicate m 0, 0⟩

/-- Embedding of `FilteredFeedbackCombFilter::next`. The buffer read is the
source's `out_buffer[buffer_idx]`; the index is incremented with no wrap,
exactly as in the source. -/
def FilteredFBComb.next (f : FilteredFBComb) (input : ℚ) : Option (ℚ × FilteredFBComb) :=
  match f.out_buffer[f.buffer_idx]? with
  | none => none
  | some delay_output =>
    let r := f.lp_filter.next delay_output
    let output := input + r.1
    some (output,
      { f with
        lp_filter := r.2
        out_buffer := f.out_buffer.set f.buffer_idx output
        buffer_idx := f.buffer_idx + 1 })

/-- Drive `FilteredFBComb.next` across a list of inputs, failing as soon as
a buffer access goes out of bounds. -/
def FilteredFBComb.run : FilteredFBComb → List ℚ → Option (List ℚ × FilteredFBComb)
  | f, [] => some ([], f)
  | f, x :: xs =>
    match f.next x with
    | none => none
    | some (y, f') =>
      match f'.run xs with
      | none => none
      | some (ys, f'') => some (y :: ys, f'')

/-! ## OverlapAddConvolver (fft_processing.hpp, lines 21-114)

The DFT stage itself is realised by FFTW, an external collaborator. -/

/-- Modelled from the spec: the FFT provider (FFTW, external to src) with the
point-wise complex multiply of `DFTConvolver::run_filter` computes, in exact
arithmetic under the provider normalisation convention that §6/§8 of the
spec require, the linear convolution of the zero-padded input window with
the filter (`fft_size = bit_ceil(output_size) ≥ output_size`, so the
circular convolution agrees with the linear one on the first
`output_size` entries). -/
def linConv (x h : List ℚ) : List ℚ :=
  (List.range (x.length + h.length - 1)).map fun n =>
    ((List.range (n + 1)).map fun i => x.getD i 0 * h.getD (n - i) 0).sum

structure OverlapAdd where
  window_size : ℕ
  filter : List ℚ
  window : List ℚ
  output : List ℚ
  write_idx : ℕ
  input_idx : ℕ
  output_idx : ℕ

/-- Embedding of `num_transients = convolver.filter_size - 1`. -/
def OverlapAdd.num_transients (s : OverlapAdd) : ℕ := s.filter.length - 1

/-- Embedding of `output_size = input_size + filter_size - 1`. -/
def OverlapAdd.output_size (s : OverlapAdd) : ℕ := s.window_size + s.filter.length - 1

/-- Embedding of the `OverlapAddConvolver` constructor: zeroed input window
and output ring, all indices zero. -/
def OverlapAdd.mk0 (w : ℕ) (h : List ℚ) : OverlapAdd :=
  ⟨w, h, List.replicate w 0, List.replicate (w + h.length - 1) 0, 0, 0, 0⟩

/-- Embedding of `OverlapAddConvolver::ready_output`: zero-clear
`window_size` ring entries starting at `(write_idx + num_transients) %
output_size`. -/
def OverlapAdd.ready_output (s : OverlapAdd) : OverlapAdd :=
  let zero_start := (s.write_idx + s.num_transients) % s.output_size
  { s with
    output := (List.range s.window_size).foldl
      (fun out i => out.set ((zero_start + i) % s.output_size) 0) s.output }

/-- Embedding of `OverlapAddConvolver::write_output` exactly as the source
has it: for each `i < output_size`, with `idx = (write_idx + i) %
output_size`, the ring slot `output[idx]` is incremented by
`convolver.output[idx]` — the convolver output is read at the RING index
`idx`, not at `i`. Afterwards `output_idx := write_idx` and `write_idx`
advances by `window_size` modulo `output_size`. -/
def OverlapAdd.write_output (s : OverlapAdd) (convOut : List ℚ) : OverlapAdd :=
  { s with
    output := (List.range s.output_size).foldl
      (fun out i =>
        let idx := (s.write_idx + i) % s.output_size
        out.set idx (out.getD idx 0 + convOut.getD idx 0)) s.output
    output_idx := s.write_idx
    write_idx := (s.write_idx + s.window_size) % s.output_size }

/-- Accumulation step as the spec (§4.9) and the repository's own test
`test_fft_processing.cpp` describe it: the convolver output entry `i` is
added at ring slot `(write_idx + i) % output_size`. -/
def OverlapAdd.write_output_spec (s : OverlapAdd) (convOut : List ℚ) : OverlapAdd :=
  { s with
    output := (List.range s.output_size).foldl
      (fun out i =>
        let idx := (s.write_idx + i) % s.output_size
        out.set idx (out.getD idx 0 + convOut.getD i 0)) s.output
    output_idx := s.write_idx
    write_idx := (s.write_idx + s.window_size) % s.output_size }

/-- Embedding of `OverlapAddConvolver::next`, generic in the accumulation
step `wr`: buffer the input; on a full window run the frequency-domain
convolution, zero-clear the expiring slab and accumulate; then emit
`output[output_idx]` and advance `output_idx` modulo `output_size`. -/
def OverlapAdd.nextWith (wr : OverlapAdd → List ℚ → OverlapAdd)
    (s : OverlapAdd) (x : ℚ) : ℚ × OverlapAdd :=
  let wnd := s.window.set s.input_idx x
  let ii := s.input_idx + 1
  let s2 :=
    if ii = s.window_size then
      wr (OverlapAdd.ready_output { s with window := wnd, input_idx := 0 })
        (linConv wnd s.filter)
    else { s with window := wnd, input_idx := ii }
  (s2.output.getD s2.output_idx 0,
    { s2 with output_idx := (s2.output_idx + 1) % s2.output_size })

/-- `next` as compiled from the source (`write_output`). -/
def OverlapAdd.next : OverlapAdd → ℚ → ℚ × OverlapAdd :=
  OverlapAdd.nextWith OverlapAdd.write_output

/-- `next` with the accumulation the spec and the test describe. -/
def OverlapAdd.nextSpec : OverlapAdd → ℚ → ℚ × OverlapAdd :=
  OverlapAdd.nextWith OverlapAdd.write_output_spec

/-! ## TimeVaryingDelayLine (time_varying_delay.hpp, lines 20-118)

`next` computes the local `output` but the function body ends without a
`return` statement, so the C++ caller receives an indeterminate value. The
embedding models the value the source computes (`nextOutput`) and the state
update it performs (`nextState`) separately. -/

structure TimeVaryingDelay where
  max_delay : ℕ
  input_coeff : ℚ
  delay_coeff : ℚ
  buffer : List ℚ
  buffer_idx : ℕ

/-- Embedding of the `TimeVaryingDelayLine` constructor: zeroed buffer of
length `max_delay`, index zero. -/
def TimeVaryingDelay.mk0 (m : ℕ) (a b : ℚ) : TimeVaryingDelay :=
  ⟨m, a, b, List.replicate m 0, 0⟩

/-- Embedding of the `output` value computed by `TimeVaryingDelayLine::next`
(the value the missing `return` fails to deliver): floor the delay, read the
`newer` and `older` samples with the source's conditional index adjustment,
linearly interpolate, and combine with the coefficients. -/
def TimeVaryingDelay.nextOutput (f : TimeVaryingDelay) (input delay : ℚ) : ℚ :=
  let lower_delay : ℤ := ⌊delay⌋
  let upper_delay : ℤ := lower_delay + 1
  let frac_delay : ℚ := delay - (lower_delay : ℚ)
  let newer : ℚ :=
    if lower_delay = 0 then input
    else
      let li : ℤ := (f.buffer_idx : ℤ) - lower_delay
      let lower_idx : ℤ := if li < 0 then li + f.max_delay else li
      f.buffer.getD lower_idx.toNat 0
  let ui : ℤ := (f.buffer_idx : ℤ) - upper_delay
  let upper_idx : ℤ := if ui < 0 then ui + f.max_delay else ui
  let older : ℚ := f.buffer.getD upper_idx.toNat 0
  let delay_output := older + frac_delay * (newer - older)
  f.input_coeff * input + f.delay_coeff * delay_output

/-- Embedding of the state update at the end of
`TimeVaryingDelayLine::next`: write the input at `buffer_idx` and advance it
modulo `max_delay`. -/
def TimeVaryingDelay.nextState (f : TimeVaryingDelay) (input : ℚ) : TimeVaryingDelay :=
  { f with
    buffer := f.buffer.set f.buffer_idx input
    buffer_idx := (f.buffer_idx + 1) % f.max_delay }

/-- Formalisation of the claim's phrase "the ring-buffer read at integer
delay `j`": the buffer entry at `(buffer_idx - j) mod max_delay` with the
mathematical (always non-negative) modulus. -/
def TimeVaryingDelay.ringReadAtDelay (f : TimeVaryingDelay) (j : ℤ) : ℚ :=
  f.buffer.getD (((f.buffer_idx : ℤ) - j).emod f.max_delay).toNat 0

/-! ## TappedDelayLine (tapped_delay_line.hpp, lines 36-135) -/

structure TappedDelayLine where
  delays : List ℕ
  coeffs : List ℚ
  buffer : List ℚ
  buffer_idx : ℕ

/-- Embedding of the buffer-size computation in the `TappedDelayLine`
constructor: the maximum of `delays`, or 0 when `delays` is empty
(`max_iter == delays.end()` leaves `max_delay = 0`). -/
def TappedDelayLine.bufferCapacity (delays : List ℕ) : ℕ :=
  delays.foldr max 0

/-- Embedding of the `TappedDelayLine` constructor: the buffer is a zero
vector of `bufferCapacity delays` entries. -/
def TappedDelayLine.mk0 (delays : List ℕ) (coeffs : List ℚ) : TappedDelayLine :=
  ⟨delays, coeffs, List.replicate (TappedDelayLine.bufferCapacity delays) 0, 0⟩

/-- Embedding of `TappedDelayLine::next`: accumulate the taps, then perform
the unchecked write `buffer[buffer_idx++] = input` followed by
`buffer_idx % buffer.size()`. The write out of bounds and the modulo by a
zero buffer size are undefined behaviour in C++, modelled as `none`. -/
def TappedDelayLine.next (f : TappedDelayLine) (input : ℚ) : Option (ℚ × TappedDelayLine) :=
  let output := f.coeffs.headD 0 * input +
    ((List.range f.delays.length).map fun i =>
      let delay := f.delays.getD i 0
      let coeff := f.coeffs.getD (i + 1) 0
      let j : ℤ := (f.buffer_idx : ℤ) - delay
      let idx : ℤ := if j < 0 then j + f.buffer.length else j
      coeff * f.buffer.getD idx.toNat 0).sum
  if f.buffer_idx < f.buffer.length then
    some (output,
      { f with
        buffer := f.buffer.set f.buffer_idx input
        buffer_idx := (f.buffer_idx + 1) % f.buffer.length })
  else none

/-! ## freeverb_main driver (freeverb_main.cpp) -/

structure FreeverbParams where
  stereo_spread : ℤ
  dry : ℚ
  wet1 : ℚ
  wet2 : ℚ
  damp : ℚ
  reflect : ℚ
  g : ℚ

/-- Embedding of the constants `freeverb_main.cpp` lines 17-23 passes to
`make_freeverb_filter`. -/
def freeverb_main_params : FreeverbParams :=
  ⟨0, 0.5, 0.035, 0.0, 0.2, 0.84, 0.5⟩

/-- Parameters the claim says the driver uses: the effect-level defaults of
spec section 4.13 (they live in the pybind11 binding `signal_cpp.cpp` and in
`test_freeverb.cpp`, not in the driver). -/
def claimed_driver_params : FreeverbParams :=
  ⟨23, 0, 1, 0, 0.2, 0.84, 0.5⟩

/-- Embedding of `freeverb_main.cpp` lines 37-38:
`extra_samples = (int) ceil(sample_rate * 2.0)`. -/
def freeverb_main_extra_samples (sample_rate : ℕ) : ℤ :=
  ⌈(sample_rate : ℚ) * 2⌉

/-! ## MIMOIIRFilter::process (filter_base.hpp, lines 207-294)

The per-channel filters are abstract `IIRFilter`s in the source; they are
modelled as one stateful step function `step : σ → List ℚ → σ × List ℚ`
from input vector to output vector (for the source's `next`,
`input_scale·x + output_lt·u`). Input streams are finite lists with the
terminal-`None`-is-sticky contract of `SampleSource`. The `read_vector`
loop (lines 252-279) is inlined into `mimoProcess` as the case analysis on
the first source, so that the recursion is structural: `assert(i == 0)`
becomes the `rest.any List.isEmpty` failure branch, and the
`assert(not read_next())` of the `input_end` arm becomes the
`rest.all List.isEmpty` check. Assertion failure is `Except.error`. -/

/-- Embedding of the transient-flush loop of `MIMOIIRFilter::process`:
`num_output_transients` steps on all-zero input vectors of width
`num_inputs`, collecting the output vectors. -/
def flushOutputs {σ : Type} (step : σ → List ℚ → σ × List ℚ) :
    σ → ℕ → ℕ → List (List ℚ)
  | _, _, 0 => []
  | st, n, t + 1 =>
    let r := step st (List.replicate n 0)
    r.2 :: flushOutputs step r.1 n t

/-- Embedding of `MIMOIIRFilter::process` over sources `s0 :: rest`: read
one sample from every source (`read_vector`), failing if one source is
exhausted while another still produces, step the filter bank and emit the
output vector, and on simultaneous exhaustion flush
`num_output_transients` zero vectors. -/
def mimoProcess {σ : Type} (step : σ → List ℚ → σ × List ℚ) :
    σ → List ℚ → List (List ℚ) → ℕ → Except Unit (List (List ℚ))
  | st, [], rest, t =>
    if rest.all List.isEmpty then .ok (flushOutputs step st (1 + rest.length) t)
    else .error ()
  | st, x :: s0t, rest, t =>
    if rest.any List.isEmpty then .error ()
    else
      let r := step st (x :: rest.map (fun s => s.headD 0))
      (mimoProcess step r.1 s0t (rest.map List.tail) t).map (r.2 :: ·)

end Virbras

/-! ## Filter designers (analog_to_digital_filters.hpp) -/

namespace Signal

inductive FirstOrderFilterType
  | Lowpass
  | Highpass
  | LowShelving
  | HighShelving
deriving DecidableEq

/-- Embedding of `Signal::FirstOrderFilter`: coefficients, type tag, and
the one-sample memories, which the constructor value-initialises to zero. -/
structure FirstOrderFilter where
  dry : ℝ
  wet : ℝ
  a0 : ℝ
  a1 : ℝ
  b1 : ℝ
  filter_type : FirstOrderFilterType
  x_prev : ℝ
  y_prev : ℝ

/-- Embedding of `Signal::detail::compute_gamma`:
`theta_c = 2·pi·fc/fs`, `gamma = cos(theta_c) / (1 + sin(theta_c))`. -/
noncomputable def compute_gamma (cutoff_freq sample_freq : ℝ) : ℝ :=
  Real.cos (2 * Real.pi * cutoff_freq / sample_freq) /
    (1 + Real.sin (2 * Real.pi * cutoff_freq / sample_freq))

/-- Embedding of `Signal::make_lowpass_first_order`. -/
noncomputable def make_lowpass_first_order (dry wet cutoff_freq sample_freq : ℝ) :
    FirstOrderFilter :=
  let gamma := compute_gamma cutoff_freq sample_freq
  ⟨dry, wet, 0.5 * (1 - gamma), 0.5 * (1 - gamma), -gamma,
    FirstOrderFilterType.Lowpass, 0, 0⟩

/-- Embedding of `Signal::make_highpass_first_order`. -/
noncomputable def make_highpass_first_order (dry wet cutoff_freq sample_freq : ℝ) :
    FirstOrderFilter :=
  let gamma := compute_gamma cutoff_freq sample_freq
  ⟨dry, wet, 0.5 * (1 + gamma), -(0.5 * (1 + gamma)), -gamma,
    FirstOrderFilterType.Highpass, 0, 0⟩

end Signal

/-! ## Non-linear saturators (math/non_linear_tools.hpp) -/

namespace MathFunctions

/-- Embedding of `Math::Functions::sgn`: `x >= 0 ? 1 : -1`. -/
noncomputable def sgn (x : ℝ) : ℝ := if 0 ≤ x then 1 else -1

/-- Embedding of `Math::Functions::arraya`. -/
noncomputable def arraya (x : ℝ) : ℝ := 1.5 * x * (1 - x * x / 3)

/-- Embedding of `Math::Functions::sigmoid`. -/
noncomputable def sigmoid (x k : ℝ) : ℝ := 2 / (1 + Real.exp (-k * x)) - 1

/-- Embedding of `Math::Functions::sigmoid2` with its constant
`(e + 1)/(e - 1)`. -/
noncomputable def sigmoid2 (x : ℝ) : ℝ :=
  ((Real.exp 1 + 1) / (Real.exp 1 - 1)) * (Real.exp x - 1) / (Real.exp x + 1)

/-- Embedding of `Math::Functions::hyperbolic_tangent` (precondition
`k ≠ 0`). -/
noncomputable def hyperbolic_tangent (x k : ℝ) : ℝ := Real.tanh (k * x) / Real.tanh k

/-- Embedding of `Math::Functions::arctangent` (precondition `k ≠ 0`). -/
noncomputable def arctangent (x k : ℝ) : ℝ := Real.arctan (k * x) / Real.arctan k

/-- Embedding of `Math::Functions::fuzz_exponential` (precondition
`k ≠ 0`). -/
noncomputable def fuzz_exponential (x k : ℝ) : ℝ :=
  sgn x * (1 - Real.exp |k * x|) / (1 - Real.exp (-k))

end MathFunctions

/-! ## Claim theorems -/

open Virbras

/-- C7: the feedforward-feedback comb with `(b_0, b_1, a, m) = (1, 1, -1/2, 3)`
driven by `[1, 2, 3, 4]` followed by 6 zero transients produces exactly
`[1, 2, 3, 4.5, 1, 1.5, 1.75, -0.5, -0.75, -0.875]`, following the step
`advance(x) = b_0·x + b_1·buf_in[w] + a·buf_out[w]` with both buffers
updated and `w` advanced modulo `m`. Exact rational equality implies the
claimed `1e-10` tolerance. -/
theorem ffbcomb_e2_output :
    processIIR FFBCombFilter.next (FFBCombFilter.mk0 1 1 (-1/2) 3) [1, 2, 3, 4] 6 =
      [1, 2, 3, 9/2, 1, 3/2, 7/4, -1/2, -3/4, -7/8] := by
  norm_num [processIIR, runSamples, FFBCombFilter.next, FFBCombFilter.mk0]

/-- Any run of `FilteredFBComb.next` whose step count exceeds the remaining
buffer capacity past the unwrapped index hits an out-of-bounds access. -/
theorem FilteredFBComb.run_oob :
    ∀ (xs : List ℚ) (f : FilteredFBComb),
      f.out_buffer.length < f.buffer_idx + xs.length → 0 < xs.length →
      f.run xs = none := by
  intro xs
  induction xs with
  | nil => intro f _ hlen; simp at hlen
  | cons x xs ih =>
    intro f hover _
    by_cases hidx : f.out_buffer.length ≤ f.buffer_idx
    · have hnone : f.out_buffer[f.buffer_idx]? = none := List.getElem?_eq_none hidx
      simp [FilteredFBComb.run, FilteredFBComb.next, hnone]
    · push_neg at hidx
      have hsome : ∃ v, f.out_buffer[f.buffer_idx]? = some v :=
        ⟨f.out_buffer.get ⟨f.buffer_idx, hidx⟩, List.getElem?_eq_getElem hidx⟩
      obtain ⟨v, hv⟩ := hsome
      have hxs : 0 < xs.length := by
        simp only [List.length_cons] at hover
        omega
      have := ih
        { f with
          lp_filter := (f.lp_filter.next v).2
          out_buffer := f.out_buffer.set f.buffer_idx (x + (f.lp_filter.next v).1)
          buffer_idx := f.buffer_idx + 1 }
        (by simp only [List.length_set, List.length_cons] at hover ⊢; omega) hxs
      simp only [FilteredFBComb.run, FilteredFBComb.next, hv] at this ⊢
      simp [this]

/-- C3: REFUTED as a statement about the source. `FilteredFeedbackCombFilter::next`
increments `buffer_idx` with no modulo-`feedback_delay` wrap, so on the
`(m+1)`-th call the filter reads `out_buffer[m]`, one past the end of the
ring: driving a fresh filter with any `m + 1` samples ends in an
out-of-bounds access (`none`), for every `m ≥ 1`. This is the index-wrap
slip that the spec itself flags; the claim describes the intended wrapped
behaviour, which the code does not implement. -/
theorem filteredFBComb_index_out_of_bounds (a b y0 : ℚ) (m : ℕ) (xs : List ℚ)
    (hm : 1 ≤ m) (hxs : xs.length = m + 1) :
    (FilteredFBComb.mk0 a b m y0).run xs = none := by
  apply FilteredFBComb.run_oob
  · simp [FilteredFBComb.mk0, hxs]
  · omega

/-- Witness for C3: the concrete filter with `m = 1` fails on its second
call to `next`. -/
theorem filteredFBComb_index_out_of_bounds_witness :
    (FilteredFBComb.mk0 1 0 1 0).run [0, 0] = none :=
  filteredFBComb_index_out_of_bounds 1 0 0 1 [0, 0] (le_refl 1) rfl

/-- C1: REFUTED as a statement about the source, which contradicts its own
test. `OverlapAddConvolver::write_output` accumulates
`convolver.output[(write_idx + i) % output_size]` into ring slot
`(write_idx + i) % output_size` — an index-aligned element-wise add over the
whole ring — instead of accumulating `convolver.output[i]` starting at
`write_idx`. For `window_size = 2`, `h = [-1, 1, 3]`, input `[1, 2, 3, 4, 5]`
plus 4 zero transients, the source yields `[0, -1, -1, 18, 18, -8, 4, 15, 0]`,
while the accumulation described by the claim (and expected by
`test_fft_processing.cpp`) yields `[0, -1, -1, 2, 5, 8, 17, 15, 0]`. -/
theorem overlap_add_e5_divergence :
    runSamples OverlapAdd.next (OverlapAdd.mk0 2 [-1, 1, 3])
        [1, 2, 3, 4, 5, 0, 0, 0, 0] = [0, -1, -1, 18, 18, -8, 4, 15, 0] ∧
      runSamples OverlapAdd.nextSpec (OverlapAdd.mk0 2 [-1, 1, 3])
        [1, 2, 3, 4, 5, 0, 0, 0, 0] = [0, -1, -1, 2, 5, 8, 17, 15, 0] := by
  constructor <;>
    norm_num [runSamples, OverlapAdd.next, OverlapAdd.nextSpec, OverlapAdd.nextWith,
      OverlapAdd.mk0, OverlapAdd.ready_output, OverlapAdd.write_output,
      OverlapAdd.write_output_spec, OverlapAdd.output_size, OverlapAdd.num_transients,
      linConv, List.range_succ]

/-- The source's conditional index adjustment (`if idx < 0 then idx +
max_delay`) agrees with the mathematical modulus whenever the offset lies in
`[-max_delay, max_delay)`. -/
theorem wrapIndex_eq_emod (t : ℤ) (m : ℕ) (hlo : -(m : ℤ) ≤ t) (hhi : t < (m : ℤ)) :
    (if t < 0 then t + m else t) = t.emod m := by
  rcases lt_or_le t 0 with h | h
  · rw [if_pos h]
    have h2 : (t + (m : ℤ)) % (m : ℤ) = t % (m : ℤ) := by
      have h3 := Int.add_mul_emod_self_left (a := t) (b := (m : ℤ)) (c := 1)
      rw [mul_one] at h3
      exact h3
    have h4 : (t + (m : ℤ)) % (m : ℤ) = t + (m : ℤ) :=
      Int.emod_eq_of_lt (by omega) (by omega)
    show t + (m : ℤ) = t % (m : ℤ)
    rw [← h2, h4]
  · rw [if_neg (not_lt.mpr h)]
    show t = t % (m : ℤ)
    rw [Int.emod_eq_of_lt h hhi]

/-- C2: the `output` value computed by `TimeVaryingDelayLine::next` equals
`a·x + b·interp` with `interp = older + frac·(newer - older)`, where `older`
and `newer` are the ring-buffer reads at integer delays `floor(d) + 1` and
`floor(d)` (and `newer = x` when `floor(d) = 0`), for every state whose
buffer has length `max_delay`, in-range write index, and every delay with
`0 ≤ floor(d)` and `floor(d) + 1 ≤ max_delay`. Note the source computes this
value but ends without the `return` statement that would deliver it. -/
theorem tvdl_next_output_interpolates (f : TimeVaryingDelay) (x d : ℚ)
    (_hbuf : f.buffer.length = f.max_delay)
    (hidx : f.buffer_idx < f.max_delay)
    (h0 : 0 ≤ ⌊d⌋) (h1 : ⌊d⌋ + 1 ≤ (f.max_delay : ℤ)) :
    f.nextOutput x d =
      f.input_coeff * x +
        f.delay_coeff *
          (f.ringReadAtDelay (⌊d⌋ + 1) +
            (d - (⌊d⌋ : ℚ)) *
              ((if ⌊d⌋ = 0 then x else f.ringReadAtDelay ⌊d⌋) -
                f.ringReadAtDelay (⌊d⌋ + 1))) := by
  have hupper := wrapIndex_eq_emod ((f.buffer_idx : ℤ) - (⌊d⌋ + 1)) f.max_delay
    (by omega) (by omega)
  by_cases hz : ⌊d⌋ = 0
  · have hupper0 := wrapIndex_eq_emod ((f.buffer_idx : ℤ) - 1) f.max_delay
      (by omega) (by omega)
    simp only [TimeVaryingDelay.nextOutput, TimeVaryingDelay.ringReadAtDelay, hz,
      if_pos, if_true, reduceIte, zero_add]
    rw [hupper0]
  · have hlower := wrapIndex_eq_emod ((f.buffer_idx : ℤ) - ⌊d⌋) f.max_delay
      (by omega) (by omega)
    simp only [TimeVaryingDelay.nextOutput, TimeVaryingDelay.ringReadAtDelay, hz,
      if_false, reduceIte]
    rw [hupper, hlower]

/-- Witness for C2: a concrete two-slot delay line with buffer `[10, 20]`,
unit coefficients, input `5` and delay `3/2`. -/
theorem tvdl_next_output_interpolates_witness :
    (⟨2, 1, 1, [10, 20], 0⟩ : TimeVaryingDelay).nextOutput 5 (3/2) =
      1 * 5 + 1 *
        ((⟨2, 1, 1, [10, 20], 0⟩ : TimeVaryingDelay).ringReadAtDelay (⌊(3/2 : ℚ)⌋ + 1) +
          ((3/2 : ℚ) - (⌊(3/2 : ℚ)⌋ : ℚ)) *
            ((if ⌊(3/2 : ℚ)⌋ = 0 then 5
              else (⟨2, 1, 1, [10, 20], 0⟩ : TimeVaryingDelay).ringReadAtDelay ⌊(3/2 : ℚ)⌋) -
              (⟨2, 1, 1, [10, 20], 0⟩ : TimeVaryingDelay).ringReadAtDelay (⌊(3/2 : ℚ)⌋ + 1))) :=
  tvdl_next_output_interpolates ⟨2, 1, 1, [10, 20], 0⟩ 5 (3/2) rfl (by norm_num)
    (by norm_num) (by norm_num)

/-- C6: REFUTED as a statement about the source. With an empty delay list
the `TappedDelayLine` constructor allocates a buffer of capacity 0 (not the
claimed 1), and every call to `next` then performs the out-of-bounds write
`buffer[0]` on a zero-length buffer followed by a modulo by zero — undefined
behaviour, modelled as `none` — instead of totally returning `b_0 · x`. -/
theorem tappedDelayLine_empty_delays (b0 x : ℚ) :
    TappedDelayLine.bufferCapacity [] = 0 ∧
      (TappedDelayLine.mk0 [] [b0]).buffer.length = 0 ∧
      (TappedDelayLine.mk0 [] [b0]).next x = none := by
  refine ⟨rfl, rfl, ?_⟩
  simp [TappedDelayLine.next, TappedDelayLine.mk0, TappedDelayLine.bufferCapacity]

/-- C4, counterexample: the parameters `freeverb_main` passes to
`make_freeverb_filter` are not the effect-level defaults the claim names
(`stereo_spread` is 0 rather than 23, `dry` is 0.5 rather than 0, `wet1` is
0.035 rather than 1). -/
theorem freeverb_main_params_ne_defaults :
    freeverb_main_params ≠ claimed_driver_params := by
  simp only [freeverb_main_params, claimed_driver_params, ne_eq,
    FreeverbParams.mk.injEq, not_and]
  intro h
  omega

/-- C4, amended: `freeverb_main` constructs its filter with
`stereo_spread = 0`, `dry = 1/2`, `wet1 = 7/200 (= 0.035)`, `wet2 = 0`,
`damp = 1/5`, `reflect = 21/25`, `g = 1/2`, and flushes
`ceil(sample_rate · 2.0) = 2 · sample_rate` zero samples of tail after the
input ends. -/
theorem freeverb_main_configuration :
    freeverb_main_params = ⟨0, 1/2, 7/200, 0, 1/5, 21/25, 1/2⟩ ∧
      ∀ sample_rate : ℕ,
        freeverb_main_extra_samples sample_rate = 2 * sample_rate := by
  constructor
  · simp only [freeverb_main_params, FreeverbParams.mk.injEq]
    norm_num
  · intro fs
    unfold freeverb_main_extra_samples
    rw [show ((fs : ℚ) * 2) = ((2 * fs : ℕ) : ℚ) by push_cast; ring,
      Int.ceil_natCast]
    push_cast
    ring

/-- C10: the source constructor of `OnePoleLowpassFilter` does not initialise
`prev_output`, so the first output is `alpha·x + beta·y0` for the
indeterminate initial memory `y0`; in particular the claimed first output
`alpha·x` fails whenever `beta·y0 ≠ 0`, e.g. for `alpha = 1/2`,
`beta = 1/5`, `y0 = 1`, `x = 0`. -/
theorem onePole_first_output_uninitialised :
    (∀ a b y0 x : ℚ, ((OnePoleLowpass.mk0 a b y0).next x).1 = a * x + b * y0) ∧
      ((OnePoleLowpass.mk0 (1/2) (1/5) 1).next 0).1 ≠ (1/2) * 0 := by
  constructor
  · intro a b y0 x
    rfl
  · norm_num [OnePoleLowpass.next, OnePoleLowpass.mk0]

/-- The transient flush of `MIMOIIRFilter::process` writes exactly as many
output vectors as requested. -/
theorem flushOutputs_length {σ : Type} (step : σ → List ℚ → σ × List ℚ) :
    ∀ (t : ℕ) (st : σ) (n : ℕ), (flushOutputs step st n t).length = t := by
  intro t
  induction t with
  | zero => intro st n; rfl
  | succ t ih => intro st n; simp [flushOutputs, ih]

/-- `mimoProcess` succeeds exactly when every source has the same length as
the first one, i.e. when all sources reach their terminal `None` on the same
step. -/
theorem mimoProcess_ok_iff {σ : Type} (step : σ → List ℚ → σ × List ℚ) :
    ∀ (s0 : List ℚ) (st : σ) (rest : List (List ℚ)) (t : ℕ),
      (∃ outs, mimoProcess step st s0 rest t = .ok outs) ↔
        ∀ s ∈ rest, s.length = s0.length := by
  intro s0
  induction s0 with
  | nil =>
    intro st rest t
    cases hall : rest.all List.isEmpty with
    | true =>
      have heq : mimoProcess step st [] rest t =
          .ok (flushOutputs step st (1 + rest.length) t) := by
        simp [mimoProcess, hall]
      rw [heq]
      constructor
      · intro _ s hs
        have h2 := List.all_eq_true.mp hall s hs
        simp [List.isEmpty_iff.mp h2]
      · intro _
        exact ⟨_, rfl⟩
    | false =>
      have heq : mimoProcess step st [] rest t = .error () := by
        simp [mimoProcess, hall]
      rw [heq]
      have hex : ∃ s ∈ rest, s ≠ [] := by
        by_contra hcon
        push_neg at hcon
        have hta : rest.all List.isEmpty = true :=
          List.all_eq_true.mpr fun s hs => by simp [List.isEmpty_iff, hcon s hs]
        simp [hta] at hall
      constructor
      · intro h
        obtain ⟨outs, houts⟩ := h
        exact Except.noConfusion houts
      · intro hlen
        exfalso
        obtain ⟨s, hs, hne⟩ := hex
        have hl := hlen s hs
        simp only [List.length_nil, List.length_eq_zero] at hl
        exact hne hl
  | cons x s0t ih =>
    intro st rest t
    cases hany : rest.any List.isEmpty with
    | true =>
      have heq : mimoProcess step st (x :: s0t) rest t = .error () := by
        simp [mimoProcess, hany]
      rw [heq]
      obtain ⟨s, hs, he⟩ := List.any_eq_true.mp hany
      have hsnil : s = [] := List.isEmpty_iff.mp he
      constructor
      · intro h
        obtain ⟨outs, houts⟩ := h
        exact Except.noConfusion houts
      · intro hlen
        exfalso
        have hl := hlen s hs
        rw [hsnil] at hl
        simp at hl
    | false =>
      have hne : ∀ s ∈ rest, s ≠ [] := by
        intro s hs hnil
        have hta : rest.any List.isEmpty = true :=
          List.any_eq_true.mpr ⟨s, hs, by simp [hnil]⟩
        simp [hta] at hany
      have heq : mimoProcess step st (x :: s0t) rest t =
          (mimoProcess step (step st (x :: rest.map fun s => s.headD 0)).1 s0t
            (rest.map List.tail) t).map
            ((step st (x :: rest.map fun s => s.headD 0)).2 :: ·) := by
        simp [mimoProcess, hany]
      rw [heq]
      have ihinst := ih (step st (x :: rest.map fun s => s.headD 0)).1
        (rest.map List.tail) t
      constructor
      · intro h s hs
        obtain ⟨outs, houts⟩ := h
        cases hin : mimoProcess step (step st (x :: rest.map fun s => s.headD 0)).1 s0t
            (rest.map List.tail) t with
        | error e =>
          rw [hin] at houts
          simp [Except.map] at houts
        | ok outs2 =>
          have htl := ihinst.mp ⟨outs2, hin⟩ s.tail (List.mem_map_of_mem List.tail hs)
          have hsne := hne s hs
          cases s with
          | nil => exact absurd rfl hsne
          | cons a as =>
            simp only [List.tail_cons] at htl
            simp [htl]
      · intro hlen
        have htl : ∀ s2 ∈ rest.map List.tail, s2.length = s0t.length := by
          intro s2 hs2
          obtain ⟨s, hs, rfl⟩ := List.mem_map.mp hs2
          have hsl := hlen s hs
          have hsne := hne s hs
          cases s with
          | nil => exact absurd rfl hsne
          | cons a as =>
            simp only [List.length_cons] at hsl
            simp only [List.tail_cons]
            omega
        obtain ⟨outs2, houts2⟩ := ihinst.mpr htl
        exact ⟨(step st (x :: rest.map fun s => s.headD 0)).2 :: outs2,
          by rw [houts2]; rfl⟩

/-- When `mimoProcess` succeeds, it emits one output vector per input step
plus exactly `num_output_transients` flushed vectors. -/
theorem mimoProcess_ok_length {σ : Type} (step : σ → List ℚ → σ × List ℚ) :
    ∀ (s0 : List ℚ) (st : σ) (rest : List (List ℚ)) (t : ℕ) (outs : List (List ℚ)),
      mimoProcess step st s0 rest t = .ok outs → outs.length = s0.length + t := by
  intro s0
  induction s0 with
  | nil =>
    intro st rest t outs houts
    cases hall : rest.all List.isEmpty with
    | false => simp [mimoProcess, hall] at houts
    | true =>
      simp only [mimoProcess, hall, if_true, Except.ok.injEq] at houts
      rw [← houts, flushOutputs_length]
      simp
  | cons x s0t ih =>
    intro st rest t outs houts
    cases hany : rest.any List.isEmpty with
    | true => simp [mimoProcess, hany] at houts
    | false =>
      have heq : mimoProcess step st (x :: s0t) rest t =
          (mimoProcess step (step st (x :: rest.map fun s => s.headD 0)).1 s0t
            (rest.map List.tail) t).map
            ((step st (x :: rest.map fun s => s.headD 0)).2 :: ·) := by
        simp [mimoProcess, hany]
      rw [heq] at houts
      cases hin : mimoProcess step (step st (x :: rest.map fun s => s.headD 0)).1 s0t
          (rest.map List.tail) t with
      | error e =>
        rw [hin] at houts
        simp [Except.map] at houts
      | ok outs2 =>
        rw [hin] at houts
        simp only [Except.map, Except.ok.injEq] at houts
        have h2 := ih _ _ _ _ hin
        rw [← houts]
        simp only [List.length_cons, h2]
        omega

/-- C8: `MIMOIIRFilter::process` (with its inlined `read_vector` loop)
asserts exactly when some source terminates on a step where another source
still produces a value — i.e. exactly when the source lengths disagree —
and on simultaneous termination it emits one output vector per input step
plus exactly `num_output_transients` vectors produced from all-zero input
vectors. -/
theorem mimo_process_termination_contract {σ : Type} (step : σ → List ℚ → σ × List ℚ)
    (st : σ) (s0 : List ℚ) (rest : List (List ℚ)) (t : ℕ) :
    ((∃ outs, mimoProcess step st s0 rest t = .ok outs) ↔
        ∀ s ∈ rest, s.length = s0.length) ∧
      ∀ outs, mimoProcess step st s0 rest t = .ok outs →
        outs.length = s0.length + t :=
  ⟨mimoProcess_ok_iff step s0 st rest t,
    fun outs h => mimoProcess_ok_length step s0 st rest t outs h⟩

/-- Witness for C8: two sources of length 2 and 2 transient steps succeed
with 4 output vectors. -/
theorem mimo_process_termination_contract_witness :
    (∃ outs, mimoProcess (fun (st : Unit) v => (st, v)) () [1, 2] [[3, 4]] 2 =
      .ok outs) ∧
      ∀ outs, mimoProcess (fun (st : Unit) v => (st, v)) () [1, 2] [[3, 4]] 2 =
        .ok outs → outs.length = 4 :=
  ⟨(mimo_process_termination_contract (fun (st : Unit) v => (st, v)) () [1, 2]
      [[3, 4]] 2).1.mpr (by simp),
    fun outs h => (mimo_process_termination_contract (fun (st : Unit) v => (st, v)) ()
      [1, 2] [[3, 4]] 2).2 outs h⟩

/-- C5, counterexample: at the Nyquist cutoff `fc = fs/2` (take `fs = 1`,
`fc = 1/2`), `theta_c = pi` and `gamma = cos(pi)/(1 + sin(pi)) = -1`,
not `1` as the claim states. -/
theorem compute_gamma_nyquist_counterexample :
    Signal.compute_gamma (1/2) 1 = -1 ∧ ((-1 : ℝ) ≠ 1) := by
  constructor
  · unfold Signal.compute_gamma
    rw [show (2 * Real.pi * (1/2) / 1 : ℝ) = Real.pi by ring, Real.cos_pi, Real.sin_pi]
    norm_num
  · norm_num

/-- C5, amended: at the Nyquist cutoff `fc = fs/2` the intermediate value is
`gamma = cos(pi)/(1 + sin(pi)) = -1`, giving the degenerate coefficients the
tests seed there: lowpass `a0 = a1 = (1-gamma)/2 = 1`, `b1 = -gamma = 1`,
and highpass `a0 = a1 = 0`, `b1 = 1`. (The claimed `gamma = 1` with lowpass
`a0 = a1 = 0`, `b1 = -1` is the behaviour at `fc = 0`, not at Nyquist.) -/
theorem designers_at_nyquist (dry wet fs : ℝ) (hfs : fs ≠ 0) :
    Signal.compute_gamma (fs/2) fs = -1 ∧
      (Signal.make_lowpass_first_order dry wet (fs/2) fs).a0 = 1 ∧
      (Signal.make_lowpass_first_order dry wet (fs/2) fs).a1 = 1 ∧
      (Signal.make_lowpass_first_order dry wet (fs/2) fs).b1 = 1 ∧
      (Signal.make_highpass_first_order dry wet (fs/2) fs).a0 = 0 ∧
      (Signal.make_highpass_first_order dry wet (fs/2) fs).a1 = 0 ∧
      (Signal.make_highpass_first_order dry wet (fs/2) fs).b1 = 1 := by
  have hθ : 2 * Real.pi * (fs/2) / fs = Real.pi := by
    field_simp
    ring
  have hg : Signal.compute_gamma (fs/2) fs = -1 := by
    unfold Signal.compute_gamma
    rw [hθ, Real.cos_pi, Real.sin_pi]
    norm_num
  refine ⟨hg, ?_, ?_, ?_, ?_, ?_, ?_⟩ <;>
    simp [Signal.make_lowpass_first_order, Signal.make_highpass_first_order, hg] <;>
    norm_num

/-- Witness for C5: the amended statement at `fs = 1`, `dry = 0`,
`wet = 1`. -/
theorem designers_at_nyquist_witness :
    Signal.compute_gamma ((1:ℝ)/2) 1 = -1 ∧
      (Signal.make_lowpass_first_order (0:ℝ) 1 ((1:ℝ)/2) 1).a0 = 1 ∧
      (Signal.make_lowpass_first_order (0:ℝ) 1 ((1:ℝ)/2) 1).a1 = 1 ∧
      (Signal.make_lowpass_first_order (0:ℝ) 1 ((1:ℝ)/2) 1).b1 = 1 ∧
      (Signal.make_highpass_first_order (0:ℝ) 1 ((1:ℝ)/2) 1).a0 = 0 ∧
      (Signal.make_highpass_first_order (0:ℝ) 1 ((1:ℝ)/2) 1).a1 = 0 ∧
      (Signal.make_highpass_first_order (0:ℝ) 1 ((1:ℝ)/2) 1).b1 = 1 :=
  designers_at_nyquist 0 1 1 one_ne_zero

/-- C9, counterexample: `sgn` is among the listed saturators and
`sgn(0) = 1 ≠ 0` (the source returns 1 for `x ≥ 0`), so not every listed
saturator maps 0 to 0. -/
theorem sgn_zero_counterexample :
    MathFunctions.sgn 0 = 1 ∧ ((1 : ℝ) ≠ 0) := by
  constructor
  · simp [MathFunctions.sgn]
  · norm_num

/-- C9, amended: every listed saturator except `sgn` maps 0 to 0 (for the
`k`-parameterised ones, for every `k ≠ 0`); `sgn` itself maps 0 to 1. -/
theorem saturators_fix_zero (k : ℝ) (_hk : k ≠ 0) :
    MathFunctions.arraya 0 = 0 ∧
      MathFunctions.sigmoid 0 k = 0 ∧
      MathFunctions.sigmoid2 0 = 0 ∧
      MathFunctions.hyperbolic_tangent 0 k = 0 ∧
      MathFunctions.arctangent 0 k = 0 ∧
      MathFunctions.fuzz_exponential 0 k = 0 ∧
      MathFunctions.sgn 0 = 1 := by
  refine ⟨?_, ?_, ?_, ?_, ?_, ?_, ?_⟩
  · norm_num [MathFunctions.arraya]
  · norm_num [MathFunctions.sigmoid]
  · norm_num [MathFunctions.sigmoid2]
  · simp [MathFunctions.hyperbolic_tangent]
  · simp [MathFunctions.arctangent]
  · norm_num [MathFunctions.fuzz_exponential]
  · simp [MathFunctions.sgn]

/-- Witness for C9: the amended statement at `k = 1`. -/
theorem saturators_fix_zero_witness :
    MathFunctions.arraya 0 = 0 ∧
      MathFunctions.sigmoid 0 1 = 0 ∧
      MathFunctions.sigmoid2 0 = 0 ∧
      MathFunctions.hyperbolic_tangent 0 1 = 0 ∧
      MathFunctions.arctangent 0 1 = 0 ∧
      MathFunctions.fuzz_exponential 0 1 = 0 ∧
      MathFunctions.sgn 0 = 1 :=
  saturators_fix_zero 1 one_ne_zero
